import Mathlib

/-!
Verification of the 2114 SRAM tester firmware (interactive variant
`Arduino_2114_AT_SRAM_tester.ino` and automated/Skjerk variant
`Arduino_2114_AT_SRAM_tester_SKJERK.ino`).

The sketches drive a 1024 x 4-bit SRAM chip over GPIO lines.  We embed the
exerciser core shallowly: the chip sits behind a `Chip` interface (an
arbitrary state machine, so that both a healthy memory and faulty chips can
be plugged in), every `writeData`/`readData` call of the firmware becomes a
`busWrite`/`busRead` step that also records the bus operation in a trace,
and each test routine (`runFullTest`, `automatedTest`, `fillMemory`,
the presence check in `setup`, the `LFSR10` generator) is translated
directly from the C source.
-/

namespace SramTester

/-- A bus operation as seen on the chip's pins: a write of a 4-bit value to
an address, or a read that returned a 4-bit value. -/
inductive Op where
  | w (addr val : Nat)
  | r (addr val : Nat)
deriving DecidableEq, Repr

/-- A model of the device sitting on the bus: an arbitrary state machine
with a write operation and a (possibly state-changing) read operation.
A healthy 2114 chip is one instance; faulty chips are others. -/
structure Chip (σ : Type) where
  write : σ → Nat → Nat → σ
  read : σ → Nat → Nat × σ

/-- Bus state: the chip state together with the trace of operations so far,
kept in reverse order (most recent first) so each step is a cons. -/
structure Bus (σ : Type) where
  chip : σ
  rtrace : List Op

/-- The chronological list of bus operations. -/
def Bus.ops (b : Bus σ) : List Op := b.rtrace.reverse

/-- `writeData(address, data)`: the four data pins carry bits 3..0 of the
value, so the chip latches `v % 16` (see `setDataBits`/`dataBits_roundtrip`
for the pin-level justification of the masking). -/
def busWrite (c : Chip σ) (b : Bus σ) (a v : Nat) : Bus σ :=
  { chip := c.write b.chip a (v % 16), rtrace := Op.w a (v % 16) :: b.rtrace }

/-- `readData(address)`: samples the four data pins and assembles a 4-bit
result, hence the `% 16` on the value the chip model supplies. -/
def busRead (c : Chip σ) (b : Bus σ) (a : Nat) : Nat × Bus σ :=
  ((c.read b.chip a).1 % 16,
    { chip := (c.read b.chip a).2,
      rtrace := Op.r a ((c.read b.chip a).1 % 16) :: b.rtrace })

/-! ### Pin-level data encoding (claim C1)

The interactive sketch (and the second automated sketch) wires
`dataPins = {10, 11, 12, 13}` as I/O4..I/O1 and drives
`digitalWrite(dataPins[i], bitRead(value, 3 - i))`; `readData` assembles
with `bitWrite(result, 3 - i, digitalRead(dataPins[i]))`.  The Skjerk
headless sketch instead uses `bitRead(value, i)` and
`bitWrite(result, i, ...)`.  We model the four data pins as `Nat → Bool`
(indices 0..3). -/

/-- `setDataBits` of the interactive/main variant: pin `i` carries bit
`3 - i` of the value. -/
def setDataBitsMain (value : Nat) : Nat → Bool :=
  fun i => value.testBit (3 - i)

/-- The read-assembly loop of `readData` in the interactive/main variant:
`bitWrite(result, 3 - i, digitalRead(dataPins[i]))` for `i = 0..3`. -/
def readAssembleMain (pins : Nat → Bool) : Nat :=
  (List.range 4).foldl (fun res i => if pins i then res ||| (1 <<< (3 - i)) else res) 0

/-- `setDataBits` of the Skjerk headless variant: pin `i` carries bit `i`. -/
def setDataBitsSkjerk (value : Nat) : Nat → Bool :=
  fun i => value.testBit i

/-- The read-assembly loop of `readData` in the Skjerk headless variant:
`bitWrite(result, i, digitalRead(dataPins[i]))` for `i = 0..3`. -/
def readAssembleSkjerk (pins : Nat → Bool) : Nat :=
  (List.range 4).foldl (fun res i => if pins i then res ||| (1 <<< i) else res) 0

/-- Pin-level memory: each address latches the four data-pin levels. -/
def PinMem : Type := Nat → (Nat → Bool)

/-- `writeData` on the pin-level memory, interactive/main encoding. -/
def writeDataMain (m : PinMem) (addr value : Nat) : PinMem :=
  fun x => if x = addr then setDataBitsMain value else m x

/-- `readData` on the pin-level memory, interactive/main encoding. -/
def readDataMain (m : PinMem) (addr : Nat) : Nat :=
  readAssembleMain (m addr)

/-- `writeData` on the pin-level memory, Skjerk encoding. -/
def writeDataSkjerk (m : PinMem) (addr value : Nat) : PinMem :=
  fun x => if x = addr then setDataBitsSkjerk value else m x

/-- `readData` on the pin-level memory, Skjerk encoding. -/
def readDataSkjerk (m : PinMem) (addr : Nat) : Nat :=
  readAssembleSkjerk (m addr)

/-! ### The 10-bit LFSR (`lfsr10_init` / `lfsr10_next`) -/

/-- `LFSR10` struct: a single `uint16_t state`. -/
structure LFSR10 where
  state : Nat
deriving DecidableEq, Repr

/-- `lfsr10_init(lfsr, seed)`: `lfsr->state = seed ? seed : 0x1;`
(the `% 65536` models the `uint16_t` parameter type). -/
def lfsr10_init (seed : Nat) : LFSR10 :=
  if seed % 65536 = 0 then ⟨0x1⟩ else ⟨seed % 65536⟩

/-- `lfsr10_next`: feedback from bits 9 and 6, shift left, inject at bit 0,
mask to 10 bits; returns the low 4 bits of the new state. -/
def lfsr10_next (l : LFSR10) : Nat × LFSR10 :=
  let new_bit := ((l.state >>> 9) ^^^ (l.state >>> 6)) &&& 1
  let st := ((l.state <<< 1) ||| new_bit) &&& 0x3FF
  (st &&& 0xF, ⟨st⟩)

/-- The output sequence of `n` successive `lfsr10_next` calls. -/
def lfsrOutputs (l : LFSR10) : Nat → List Nat
  | 0 => []
  | n + 1 => (lfsr10_next l).1 :: lfsrOutputs (lfsr10_next l).2 n

/-- Specification-side formulation of the feedback bit: the XOR of bit 9
and bit 6 of the current state. -/
def lfsrFeedback (s : Nat) : Nat :=
  if s.testBit 9 = s.testBit 6 then 0 else 1

/-! ### Test-runner state and phases -/

/-- The local state of a test run: `int errorCount`, `bool allSame`,
`byte firstData`, plus the bus. -/
structure RunSt (σ : Type) where
  errorCount : Nat
  allSame : Bool
  firstData : Nat
  bus : Bus σ

/-- Initial run state: `errorCount = 0`, `allSame = true`, `firstData = 0`,
fresh chip state, empty trace. -/
def initRun (s0 : σ) : RunSt σ :=
  ⟨0, true, 0, ⟨s0, []⟩⟩

/-- A write sweep: `for (addr = 0; addr < 1024; addr++) writeData(addr, pf(addr))`. -/
def writeSweep (c : Chip σ) (pf : Nat → Nat) (b : Bus σ) : Bus σ :=
  (List.range 1024).foldl (fun b a => busWrite c b a (pf a)) b

/-- `fillMemory(value)`: writes `value` to every one of the 1024 addresses. -/
def fillMemory (c : Chip σ) (b : Bus σ) (value : Nat) : Bus σ :=
  writeSweep c (fun _ => value) b

/-- The checkerboard value of the sketches: `(addr % 2) ? 0x5 : 0xA`. -/
def altPattern (addr : Nat) : Nat :=
  if addr % 2 ≠ 0 then 0x5 else 0xA

/-! #### Interactive variant: `runFullTest` -/

/-- One iteration of the constant-pattern loop body of `runFullTest`:
write the pattern, read it back, update `firstData`/`allSame`, and on a
mismatch count the error and perform the diagnostic re-write and re-read
the source does for its error report.  Returns the read value as well. -/
def constStepCore (c : Chip σ) (pattern : Nat) (r : RunSt σ) (addr : Nat) :
    Nat × RunSt σ :=
  let rd := busRead c (busWrite c r.bus addr pattern) addr
  let data := rd.1
  let fd := if addr = 0 ∧ pattern = 0 then data else r.firstData
  let asf := if addr = 0 ∧ pattern = 0 then r.allSame
    else if data = r.firstData then r.allSame else false
  if data ≠ pattern then
    let rr := busRead c (busWrite c rd.2 addr pattern) addr
    (data, ⟨r.errorCount + 1, asf, fd, rr.2⟩)
  else
    (data, ⟨r.errorCount, asf, fd, rd.2⟩)

/-- The state part of `constStepCore`. -/
def constStep (c : Chip σ) (pattern : Nat) (r : RunSt σ) (addr : Nat) : RunSt σ :=
  (constStepCore c pattern r addr).2

/-- The constant-pattern phase of `runFullTest`: patterns 0..15, each over
addresses 0..1023, write-then-read per address. -/
def constPhase (c : Chip σ) (r : RunSt σ) : RunSt σ :=
  (List.range 16).foldl
    (fun r pattern => (List.range 1024).foldl (constStep c pattern) r) r

/-- The alternating-pattern read loop body of `runFullTest`: read, compare
against the checkerboard value, and on a mismatch count the error and do
the diagnostic re-write and re-read.  `allSame`/`firstData` are untouched. -/
def altReadStep (c : Chip σ) (r : RunSt σ) (addr : Nat) : RunSt σ :=
  let expected := altPattern addr
  let rd := busRead c r.bus addr
  if rd.1 ≠ expected then
    let rr := busRead c (busWrite c rd.2 addr expected) addr
    ⟨r.errorCount + 1, r.allSame, r.firstData, rr.2⟩
  else
    ⟨r.errorCount, r.allSame, r.firstData, rd.2⟩

/-- The alternating (checkerboard) write sweep of `runFullTest`. -/
def altWritePhase (c : Chip σ) (r : RunSt σ) : RunSt σ :=
  { r with bus := writeSweep c altPattern r.bus }

/-- The alternating (checkerboard) read sweep of `runFullTest`. -/
def altReadPhase (c : Chip σ) (r : RunSt σ) : RunSt σ :=
  (List.range 1024).foldl (altReadStep c) r

/-- The closing `fillMemory(0xF)` call shared by both variants. -/
def finishFill (c : Chip σ) (r : RunSt σ) : RunSt σ :=
  { r with bus := fillMemory c r.bus 0xF }

/-- `runFullTest()` of the interactive sketch: constant patterns 0..15,
then the alternating (checkerboard) write and read sweeps, then
`fillMemory(0xF)`. -/
def runFullTest (c : Chip σ) (s0 : σ) : RunSt σ :=
  finishFill c (altReadPhase c (altWritePhase c (constPhase c (initRun s0))))

/-! #### Automated (Skjerk) variant: `automatedTest` -/

/-- Constant-pattern read sweep body of `automatedTest`: read (masked to
4 bits), update `firstData`/`allSame`, count a mismatch against
`pattern & 0xF`.  No diagnostic re-read in this variant. -/
def autoConstReadStep (c : Chip σ) (pattern : Nat) (r : RunSt σ) (addr : Nat) :
    RunSt σ :=
  let rd := busRead c r.bus addr
  let data := rd.1 &&& 0xF
  let fd := if addr = 0 ∧ pattern = 0 then data else r.firstData
  let asf := if addr = 0 ∧ pattern = 0 then r.allSame
    else if data = r.firstData then r.allSame else false
  let ec := if data ≠ (pattern &&& 0xF) then r.errorCount + 1 else r.errorCount
  ⟨ec, asf, fd, rd.2⟩

/-- One constant-pattern round of `automatedTest`: a full write sweep of
`pattern & 0xF` followed by a full read sweep. -/
def autoConstRound (c : Chip σ) (r : RunSt σ) (pattern : Nat) : RunSt σ :=
  (List.range 1024).foldl (autoConstReadStep c pattern)
    { r with bus := writeSweep c (fun _ => pattern &&& 0xF) r.bus }

/-- The constant-pattern phase of `automatedTest`: rounds for patterns
0..15. -/
def autoConstPhase (c : Chip σ) (r : RunSt σ) : RunSt σ :=
  (List.range 16).foldl (autoConstRound c) r

/-- One step of a read-and-check sweep of `automatedTest` (alternating and
walking-bit sections): read the address (masked to 4 bits) and count a
mismatch against `pf(addr)`; `allSame`/`firstData` are untouched. -/
def checkStep (c : Chip σ) (pf : Nat → Nat) (r : RunSt σ) (a : Nat) : RunSt σ :=
  let rd := busRead c r.bus a
  let data := rd.1 &&& 0xF
  ⟨(if data ≠ pf a then r.errorCount + 1 else r.errorCount),
    r.allSame, r.firstData, rd.2⟩

/-- A full read-and-check sweep over addresses 0..1023. -/
def checkSweep (c : Chip σ) (pf : Nat → Nat) (r : RunSt σ) : RunSt σ :=
  (List.range 1024).foldl (checkStep c pf) r

/-- One walking-bit round of `automatedTest` for a bit position: a write
and check sweep of `(1 << bit) & 0xF`, then of `(~(1 << bit)) & 0xF`
(the complement-and-mask is rendered as XOR with `0xF`, which agrees with
the C expression on 4-bit values). -/
def walkRound (c : Chip σ) (r : RunSt σ) (bit : Nat) : RunSt σ :=
  let p1 := (1 <<< bit) &&& 0xF
  let r1 := checkSweep c (fun _ => p1)
    { r with bus := writeSweep c (fun _ => p1) r.bus }
  let p2 := ((1 <<< bit) ^^^ 0xF) &&& 0xF
  checkSweep c (fun _ => p2)
    { r1 with bus := writeSweep c (fun _ => p2) r1.bus }

/-- The walking 1s/0s phase of `automatedTest`: rounds for bits 0..3. -/
def walkPhase (c : Chip σ) (r : RunSt σ) : RunSt σ :=
  (List.range 4).foldl (walkRound c) r

/-- One step of the LFSR write sweep: write the next output (masked to 4
bits) at the address and advance the generator. -/
def lfsrWriteStep (c : Chip σ) (s : RunSt σ × LFSR10) (a : Nat) :
    RunSt σ × LFSR10 :=
  let nx := lfsr10_next s.2
  ({ s.1 with bus := busWrite c s.1.bus a (nx.1 &&& 0xF) }, nx.2)

/-- The LFSR write sweep of `automatedTest`, seeded with `0x1A3`. -/
def lfsrWritePhase (c : Chip σ) (r : RunSt σ) : RunSt σ :=
  ((List.range 1024).foldl (lfsrWriteStep c) (r, lfsr10_init 0x1A3)).1

/-- One step of the LFSR read sweep: read the address and count a mismatch
against the regenerated output. -/
def lfsrReadStep (c : Chip σ) (s : RunSt σ × LFSR10) (a : Nat) :
    RunSt σ × LFSR10 :=
  let nx := lfsr10_next s.2
  let rd := busRead c s.1.bus a
  let data := rd.1 &&& 0xF
  (RunSt.mk
    (if data ≠ (nx.1 &&& 0xF) then s.1.errorCount + 1 else s.1.errorCount)
    s.1.allSame s.1.firstData rd.2, nx.2)

/-- The LFSR read sweep of `automatedTest`, re-seeded with `0x1A3`. -/
def lfsrReadPhase (c : Chip σ) (r : RunSt σ) : RunSt σ :=
  ((List.range 1024).foldl (lfsrReadStep c) (r, lfsr10_init 0x1A3)).1

/-- The alternating (checkerboard) write-then-check round of
`automatedTest` (patterns masked to 4 bits, no `allSame` update). -/
def autoAltPhase (c : Chip σ) (r : RunSt σ) : RunSt σ :=
  checkSweep c (fun a => altPattern a &&& 0xF)
    { r with bus := writeSweep c (fun a => altPattern a &&& 0xF) r.bus }

/-- `automatedTest()` of the Skjerk headless sketch: constant patterns,
alternating patterns, walking 1s/0s, the LFSR pattern, then
`fillMemory(0xF)` (the LED indication is I/O glue and is not modelled;
the returned state carries `errorCount`). -/
def automatedTest (c : Chip σ) (s0 : σ) : RunSt σ :=
  finishFill c
    (lfsrReadPhase c
      (lfsrWritePhase c
        (walkPhase c (autoAltPhase c (autoConstPhase c (initRun s0))))))

/-! #### The presence check performed in `setup()` -/

/-- The read-back value of the presence check: what `readData(0)` returns
after `writeData(0, 0xA)` on a fresh bus. -/
def presenceReadBack (c : Chip σ) (s0 : σ) : Nat :=
  (busRead c (busWrite c ⟨s0, []⟩ 0 0xA) 0).1

/-- The presence check of `setup()`: write `0xA` to address 0, read it
back, and flag the chip as absent when the read equals `0x0` or `0xF`.
Returns the absence flag and the bus. -/
def presenceCheck (c : Chip σ) (s0 : σ) : Bool × Bus σ :=
  let rd := busRead c (busWrite c ⟨s0, []⟩ 0 0xA) 0
  (rd.1 == 0x0 || rd.1 == 0xF, rd.2)

/-! ### Chip instances -/

/-- Pointwise update of a plain word-addressed memory. -/
def memWrite (m : Nat → Nat) (a v : Nat) : Nat → Nat :=
  fun x => if x = a then v else m x

/-- A healthy 1024 x 4-bit memory: writes store, reads return the stored
word without side effects. -/
def healthyChip : Chip (Nat → Nat) :=
  ⟨memWrite, fun m a => (m a, m)⟩

/-- The all-zero initial memory. -/
def mem0 : Nat → Nat := fun _ => 0

/-- A faulty chip used as a counterexample: its state counts the writes it
has seen (it stores nothing), and reads answer `0x5` until the 17000th
write and `0x6` afterwards.  Against `automatedTest` the threshold falls
between the 16384 writes of the constant-pattern phase and the 17408
writes reached during the checkerboard sweep, so every constant-phase read
returns 5 and every later read returns 6. -/
def countWritesChip : Chip Nat :=
  ⟨fun s _ _ => s + 1, fun s _ => ((if s < 17000 then 0x5 else 0x6), s)⟩

/-! ### Trace observations -/

/-- The values of all read operations of a trace, in order. -/
def readVals (l : List Op) : List Nat :=
  l.filterMap (fun o => match o with | Op.r _ v => some v | Op.w _ _ => none)

/-- The values of all write operations to address 0 of a trace, in order.
Each sweep of the suites writes address 0 exactly once (when no diagnostic
re-write hits address 0), so this lists the sweeps in order by their
pattern value at address 0. -/
def writesTo0 (l : List Op) : List Nat :=
  l.filterMap (fun o =>
    match o with
    | Op.w addr v => if addr = 0 then some v else none
    | Op.r _ _ => none)

/-- The trace of the final fill pass: a write of `0xF` to every address in
ascending order. -/
def fillOps : List Op :=
  (List.range 1024).map (fun a => Op.w a 0xF)

/-! ### Auxiliary views of the constant-pattern phase

To reason about `allSame` we flatten the nested pattern/address loops of
the constant phase into one fold over the list of `(pattern, addr)` pairs
in iteration order, and collect the value of the main read of each
iteration (the diagnostic re-reads of the error path are not consulted by
the `allSame` logic). -/

/-- All `(x, y)` pairs, outer index first, in loop order. -/
def pairsOf (xs : List α) (ys : List β) : List (α × β) :=
  xs.foldr (fun x acc => (ys.map (fun y => (x, y))) ++ acc) []

/-- The `(pattern, addr)` iteration order of the constant phase. -/
def constPairs : List (Nat × Nat) :=
  pairsOf (List.range 16) (List.range 1024)

/-- The constant-phase iterations after the first one. -/
def constPairsTail : List (Nat × Nat) :=
  ((List.range 1023).map (· + 1)).map (fun y => ((0 : Nat), y))
    ++ pairsOf ((List.range 15).map (· + 1)) (List.range 1024)

/-- The constant phase as a single fold over `(pattern, addr)` pairs. -/
def constRun (c : Chip σ) (L : List (Nat × Nat)) (r : RunSt σ) : RunSt σ :=
  L.foldl (fun r q => constStep c q.1 r q.2) r

/-- The main read value of each constant-phase iteration along `L`. -/
def constReadsAux (c : Chip σ) : List (Nat × Nat) → RunSt σ → List Nat
  | [], _ => []
  | q :: L, r =>
    (constStepCore c q.1 r q.2).1 :: constReadsAux c L (constStep c q.1 r q.2)

/-- The main read values of the constant-pattern phase of `runFullTest`,
in iteration order. -/
def constReads (c : Chip σ) (s0 : σ) : List Nat :=
  constReadsAux c constPairs (initRun s0)

/-! ### The sweep order asserted by the specification

Formalisation of the claimed suite order, by the first write of each sweep
(its write to address 0): constants 0..15, the checkerboard (`0xA` at the
even address 0), the walking-bit sweeps for bits 0..3 (set then clear),
optionally the LFSR sweep, then the fill value `0xF`. -/

/-- Claimed sweep order without the pseudo-random sweep. -/
def claimedSweepHeads : List Nat :=
  (List.range 16) ++ [0xA] ++ [0x1, 0xE, 0x2, 0xD, 0x4, 0xB, 0x8, 0x7] ++ [0xF]

/-- Claimed sweep order with the pseudo-random sweep (seed `0x1A3`). -/
def claimedSweepHeadsLfsr : List Nat :=
  (List.range 16) ++ [0xA] ++ [0x1, 0xE, 0x2, 0xD, 0x4, 0xB, 0x8, 0x7]
    ++ [(lfsr10_next (lfsr10_init 0x1A3)).1] ++ [0xF]

/-- `Extends b2 b1`: the trace of `b2` continues that of `b1` (the reversed
trace grew by a prefix). -/
def Bus.Extends (b2 b1 : Bus σ) : Prop :=
  ∃ t, b2.rtrace = t ++ b1.rtrace

/-! ## Generic lemmas -/

set_option maxRecDepth 100000

/-- A fold preserves any projection its step function leaves fixed. -/
theorem foldl_fix (g : γ → α → γ) (p : γ → δ) (h : ∀ s a, p (g s a) = p s) :
    ∀ (L : List α) (s : γ), p (L.foldl g s) = p s := by
  intro L
  induction L with
  | nil => intro s; rfl
  | cons a L ih => intro s; rw [List.foldl_cons, ih, h]

/-- Unfolding equation of `pairsOf`. -/
theorem pairsOf_cons (x : α) (xs : List α) (ys : List β) :
    pairsOf (x :: xs) ys = (ys.map (fun y => (x, y))) ++ pairsOf xs ys := rfl

/-- Flattening two nested folds into one fold over the pair list. -/
theorem foldl_pairsOf (f : α → γ → β → γ) :
    ∀ (xs : List α) (ys : List β) (init : γ),
      (pairsOf xs ys).foldl (fun r q => f q.1 r q.2) init
        = xs.foldl (fun r x => ys.foldl (f x) r) init := by
  intro xs
  induction xs with
  | nil => intro ys init; rfl
  | cons x xs ih =>
      intro ys init
      rw [pairsOf_cons, List.foldl_append, List.foldl_map, List.foldl_cons]
      exact ih ys _

/-- The first component of any pair of `pairsOf xs ys` lies in `xs`. -/
theorem mem_pairsOf_left :
    ∀ {xs : List α} {ys : List β} {q : α × β}, q ∈ pairsOf xs ys → q.1 ∈ xs := by
  intro xs
  induction xs with
  | nil => intro ys q h; cases h
  | cons x xs ih =>
      intro ys q h
      rw [pairsOf_cons] at h
      rcases List.mem_append.mp h with h1 | h2
      · rcases List.mem_map.mp h1 with ⟨y, _, rfl⟩
        exact List.mem_cons_self x xs
      · exact List.mem_cons_of_mem x (ih h2)

/-! ## Trace algebra -/

/-- Chronological operations of a single bus write. -/
theorem busWrite_ops (c : Chip σ) (b : Bus σ) (a v : Nat) :
    (busWrite c b a v).ops = b.ops ++ [Op.w a (v % 16)] := by
  simp [busWrite, Bus.ops]

/-- Chronological operations of a single bus read. -/
theorem busRead_ops (c : Chip σ) (b : Bus σ) (a : Nat) :
    (busRead c b a).2.ops = b.ops ++ [Op.r a ((c.read b.chip a).1 % 16)] := by
  simp [busRead, Bus.ops]

/-- `writesTo0` distributes over concatenation. -/
theorem writesTo0_append (l1 l2 : List Op) :
    writesTo0 (l1 ++ l2) = writesTo0 l1 ++ writesTo0 l2 :=
  List.filterMap_append l1 l2 _

/-- `readVals` distributes over concatenation. -/
theorem readVals_append (l1 l2 : List Op) :
    readVals (l1 ++ l2) = readVals l1 ++ readVals l2 :=
  List.filterMap_append l1 l2 _

/-- `writesTo0` of a leading write. -/
theorem writesTo0_cons_w (a v : Nat) (l : List Op) :
    writesTo0 (Op.w a v :: l) = (if a = 0 then [v] else []) ++ writesTo0 l := by
  by_cases h : a = 0 <;> simp [writesTo0, List.filterMap_cons, h]

/-- `writesTo0` ignores a leading read. -/
theorem writesTo0_cons_r (a v : Nat) (l : List Op) :
    writesTo0 (Op.r a v :: l) = writesTo0 l := by
  simp [writesTo0, List.filterMap_cons]

/-- `readVals` of a leading read. -/
theorem readVals_cons_r (a v : Nat) (l : List Op) :
    readVals (Op.r a v :: l) = v :: readVals l := by
  simp [readVals, List.filterMap_cons]

/-- `readVals` ignores a leading write. -/
theorem readVals_cons_w (a v : Nat) (l : List Op) :
    readVals (Op.w a v :: l) = readVals l := by
  simp [readVals, List.filterMap_cons]

/-- A full-sweep list of writes contributes exactly its address-0 value to
`writesTo0`. -/
theorem writesTo0_mapRange (pf : Nat → Nat) :
    writesTo0 ((List.range 1024).map (fun a => Op.w a (pf a))) = [pf 0] := by
  rw [show (1024 : Nat) = 1023 + 1 from rfl, List.range_succ_eq_map, List.map_cons,
    writesTo0_cons_w, if_pos rfl, List.map_map]
  have hnil :
      writesTo0 ((List.range 1023).map ((fun a => Op.w a (pf a)) ∘ (· + 1))) = [] := by
    rw [writesTo0, List.filterMap_map]
    refine List.filterMap_eq_nil_iff.mpr ?_
    intro a _
    simp [Function.comp]
  rw [hnil, List.append_nil]

/-! ## Write sweeps -/

/-- The reversed trace accumulated by a write sweep along any address
list. -/
theorem foldl_write_rtrace (c : Chip σ) (pf : Nat → Nat) :
    ∀ (L : List Nat) (b : Bus σ),
      (L.foldl (fun b a => busWrite c b a (pf a)) b).rtrace
        = (L.map (fun a => Op.w a (pf a % 16))).reverse ++ b.rtrace := by
  intro L
  induction L with
  | nil => intro b; rfl
  | cons x L ih =>
      intro b
      rw [List.foldl_cons, ih]
      simp [busWrite, List.reverse_cons, List.append_assoc]

/-- The chronological bus operations of a write sweep. -/
theorem writeSweep_ops (c : Chip σ) (pf : Nat → Nat) (b : Bus σ) :
    (writeSweep c pf b).ops
      = b.ops ++ (List.range 1024).map (fun a => Op.w a (pf a % 16)) := by
  unfold writeSweep Bus.ops
  rw [foldl_write_rtrace, List.reverse_append, List.reverse_reverse]

/-- A write sweep contributes exactly its address-0 value to `writesTo0`. -/
theorem writesTo0_writeSweep (c : Chip σ) (pf : Nat → Nat) (b : Bus σ) :
    writesTo0 (writeSweep c pf b).ops = writesTo0 b.ops ++ [pf 0 % 16] := by
  rw [writeSweep_ops, writesTo0_append, writesTo0_mapRange (fun a => pf a % 16)]

/-- A write sweep emits no reads. -/
theorem readVals_writeSweep (c : Chip σ) (pf : Nat → Nat) (b : Bus σ) :
    readVals (writeSweep c pf b).ops = readVals b.ops := by
  rw [writeSweep_ops, readVals_append]
  have hnil : readVals ((List.range 1024).map (fun a => Op.w a (pf a % 16))) = [] := by
    rw [readVals, List.filterMap_map]
    refine List.filterMap_eq_nil_iff.mpr ?_
    intro a _
    simp [Function.comp]
  rw [hnil, List.append_nil]

/-! ## Healthy-memory effect of write sweeps -/

/-- Addresses outside the sweep list are untouched. -/
theorem foldl_write_chip_notMem (pf : Nat → Nat) :
    ∀ (L : List Nat) (b : Bus (Nat → Nat)) (a : Nat), a ∉ L →
      (L.foldl (fun b x => busWrite healthyChip b x (pf x)) b).chip a = b.chip a := by
  intro L
  induction L with
  | nil => intro b a _; rfl
  | cons x L ih =>
      intro b a h
      rw [List.foldl_cons, ih _ _ (fun hm => h (List.mem_cons_of_mem x hm))]
      show (if a = x then pf x % 16 else b.chip a) = b.chip a
      rw [if_neg (fun he : a = x => h (by rw [he]; exact List.mem_cons_self x L))]

/-- Every address of the sweep list ends up holding its (masked) pattern
value. -/
theorem foldl_write_chip_mem (pf : Nat → Nat) :
    ∀ (L : List Nat) (b : Bus (Nat → Nat)) (a : Nat), a ∈ L →
      (L.foldl (fun b x => busWrite healthyChip b x (pf x)) b).chip a = pf a % 16 := by
  intro L
  induction L with
  | nil => intro b a h; cases h
  | cons x L ih =>
      intro b a h
      by_cases hm : a ∈ L
      · rw [List.foldl_cons]
        exact ih _ a hm
      · have hax : a = x := by
          rcases List.mem_cons.mp h with h1 | h2
          · exact h1
          · exact absurd h2 hm
        rw [List.foldl_cons, foldl_write_chip_notMem pf L _ a hm]
        subst hax
        show (if a = a then pf a % 16 else b.chip a) = pf a % 16
        rw [if_pos rfl]

/-- After a write sweep on the healthy memory, every address below 1024
holds its (masked) pattern value. -/
theorem writeSweep_chip (pf : Nat → Nat) (b : Bus (Nat → Nat)) (a : Nat)
    (h : a < 1024) :
    (writeSweep healthyChip pf b).chip a = pf a % 16 :=
  foldl_write_chip_mem pf (List.range 1024) b a (List.mem_range.mpr h)

/-- The chronological operations of `fillMemory _ 0xF`: the previous
operations followed by `fillOps`. -/
theorem fillMemory_ops (c : Chip σ) (b : Bus σ) :
    (fillMemory c b 0xF).ops = b.ops ++ fillOps := by
  unfold fillMemory fillOps
  rw [writeSweep_ops]

/-- After `fillMemory _ 0xF` the healthy memory holds 0xF at every address
below 1024. -/
theorem fillMemory_chip (b : Bus (Nat → Nat)) (a : Nat) (h : a < 1024) :
    (fillMemory healthyChip b 0xF).chip a = 0xF := by
  have hm := writeSweep_chip (fun _ => 0xF) b a h
  simpa using hm

/-! ## Read-only sweeps -/

/-- A fold whose every step merely performs one bus read adds nothing to
`writesTo0`. -/
theorem writesTo0_foldl_readOnly (c : Chip σ) (g : RunSt σ → Nat → RunSt σ)
    (hb : ∀ r a, (g r a).bus = (busRead c r.bus a).2) :
    ∀ (L : List Nat) (r : RunSt σ),
      writesTo0 (L.foldl g r).bus.ops = writesTo0 r.bus.ops := by
  intro L
  induction L with
  | nil => intro r; rfl
  | cons x L ih =>
      intro r
      rw [List.foldl_cons, ih, hb, busRead_ops, writesTo0_append, writesTo0_cons_r]
      simp [writesTo0]

/-- `checkSweep` adds nothing to `writesTo0`. -/
theorem writesTo0_checkSweep (c : Chip σ) (pf : Nat → Nat) (r : RunSt σ) :
    writesTo0 (checkSweep c pf r).bus.ops = writesTo0 r.bus.ops :=
  writesTo0_foldl_readOnly c (checkStep c pf) (fun _ _ => rfl) (List.range 1024) r

/-- The constant-pattern read sweep of `automatedTest` adds nothing to
`writesTo0`. -/
theorem writesTo0_autoConstReads (c : Chip σ) (p : Nat) (r : RunSt σ) :
    writesTo0 ((List.range 1024).foldl (autoConstReadStep c p) r).bus.ops
      = writesTo0 r.bus.ops :=
  writesTo0_foldl_readOnly c (autoConstReadStep c p) (fun _ _ => rfl)
    (List.range 1024) r

/-- The LFSR read sweep adds nothing to `writesTo0`. -/
theorem writesTo0_lfsrReadPhase (c : Chip σ) (r : RunSt σ) :
    writesTo0 (lfsrReadPhase c r).bus.ops = writesTo0 r.bus.ops := by
  unfold lfsrReadPhase
  have haux : ∀ (L : List Nat) (s : RunSt σ × LFSR10),
      writesTo0 (L.foldl (lfsrReadStep c) s).1.bus.ops = writesTo0 s.1.bus.ops := by
    intro L
    induction L with
    | nil => intro s; rfl
    | cons x L ih =>
        intro s
        rw [List.foldl_cons, ih]
        show writesTo0 (busRead c s.1.bus x).2.ops = _
        rw [busRead_ops, writesTo0_append, writesTo0_cons_r]
        simp [writesTo0]
  exact haux (List.range 1024) (r, lfsr10_init 0x1A3)

/-! ## The LFSR write sweep trace -/

/-- The operations of the LFSR write fold along any address list: one
write per address, carrying the successive generator outputs. -/
theorem lfsrWriteFold_ops (c : Chip σ) :
    ∀ (L : List Nat) (r : RunSt σ) (l : LFSR10),
      (L.foldl (lfsrWriteStep c) (r, l)).1.bus.ops
        = r.bus.ops
          ++ (L.zip (lfsrOutputs l L.length)).map
              (fun q => Op.w q.1 ((q.2 &&& 0xF) % 16)) := by
  intro L
  induction L with
  | nil => intro r l; simp [lfsrOutputs]
  | cons x L ih =>
      intro r l
      rw [List.foldl_cons]
      rw [show lfsrWriteStep c (r, l) x
            = ({ r with bus := busWrite c r.bus x ((lfsr10_next l).1 &&& 0xF) },
               (lfsr10_next l).2) from rfl]
      rw [ih]
      show (busWrite c r.bus x ((lfsr10_next l).1 &&& 0xF)).ops ++ _ = _
      rw [busWrite_ops, List.length_cons,
        show lfsrOutputs l (L.length + 1)
          = (lfsr10_next l).1 :: lfsrOutputs (lfsr10_next l).2 L.length from rfl,
        List.zip_cons_cons, List.map_cons, List.append_assoc]
      rfl

/-- Every LFSR output is already a 4-bit value, so mask and mod leave it
unchanged. -/
theorem lfsrOutputs_mask :
    ∀ (n : Nat) (l : LFSR10) (v : Nat),
      v ∈ lfsrOutputs l n → (v &&& 0xF) % 16 = v := by
  intro n
  induction n with
  | zero => intro l v h; cases h
  | succ n ih =>
      intro l v h
      rcases List.mem_cons.mp h with h1 | h2
      · subst h1
        show (((lfsr10_next l).1 &&& 15) % 16) = (lfsr10_next l).1
        have hv : (lfsr10_next l).1
            = (((l.state <<< 1) |||
                (((l.state >>> 9) ^^^ (l.state >>> 6)) &&& 1)) &&& 0x3FF) &&& 0xF := rfl
        rw [hv]
        generalize ((l.state <<< 1) |||
          (((l.state >>> 9) ^^^ (l.state >>> 6)) &&& 1)) &&& 0x3FF = y
        have h15 : ∀ z : Nat, z &&& 15 = z % 16 :=
          fun z => Nat.and_pow_two_sub_one_eq_mod z 4
        rw [h15, h15]
        omega
      · exact ih _ v h2

/-- The LFSR write sweep appends exactly the 1024 writes of the generated
sequence, output `n` at address `n`. -/
theorem lfsrWritePhase_ops (c : Chip σ) (r : RunSt σ) :
    (lfsrWritePhase c r).bus.ops
      = r.bus.ops
        ++ ((List.range 1024).zip (lfsrOutputs (lfsr10_init 0x1A3) 1024)).map
            (fun q => Op.w q.1 q.2) := by
  unfold lfsrWritePhase
  rw [lfsrWriteFold_ops c (List.range 1024) r (lfsr10_init 0x1A3),
    List.length_range]
  congr 1

/-- The LFSR write sweep contributes exactly the first generator output to
`writesTo0`. -/
theorem writesTo0_lfsrWritePhase (c : Chip σ) (r : RunSt σ) :
    writesTo0 (lfsrWritePhase c r).bus.ops
      = writesTo0 r.bus.ops ++ [(lfsr10_next (lfsr10_init 0x1A3)).1] := by
  rw [lfsrWritePhase_ops, writesTo0_append]
  congr 1

/-! ## `allSame`/`firstData` are only touched by the constant phase -/

/-- A read-check sweep leaves `allSame` and `firstData` unchanged. -/
theorem checkSweep_fix (c : Chip σ) (pf : Nat → Nat) (r : RunSt σ) :
    ((checkSweep c pf r).allSame, (checkSweep c pf r).firstData)
      = (r.allSame, r.firstData) :=
  foldl_fix (checkStep c pf) (fun r => (r.allSame, r.firstData))
    (fun _ _ => rfl) (List.range 1024) r

/-- The alternating read loop of `runFullTest` leaves `allSame` and
`firstData` unchanged. -/
theorem altReadStep_fix (c : Chip σ) (r : RunSt σ) (a : Nat) :
    ((altReadStep c r a).allSame, (altReadStep c r a).firstData)
      = (r.allSame, r.firstData) := by
  simp only [altReadStep]
  split <;> rfl

/-- A walking-bit round leaves `allSame` and `firstData` unchanged. -/
theorem walkRound_fix (c : Chip σ) (r : RunSt σ) (bit : Nat) :
    ((walkRound c r bit).allSame, (walkRound c r bit).firstData)
      = (r.allSame, r.firstData) := by
  simp only [walkRound]
  rw [checkSweep_fix]
  dsimp only
  rw [checkSweep_fix]

/-- The walking-bit phase leaves `allSame` and `firstData` unchanged. -/
theorem walkPhase_fix (c : Chip σ) (r : RunSt σ) :
    ((walkPhase c r).allSame, (walkPhase c r).firstData)
      = (r.allSame, r.firstData) :=
  foldl_fix (walkRound c) (fun r => (r.allSame, r.firstData))
    (walkRound_fix c) (List.range 4) r

/-- The LFSR write sweep leaves `allSame` and `firstData` unchanged. -/
theorem lfsrWritePhase_fix (c : Chip σ) (r : RunSt σ) :
    ((lfsrWritePhase c r).allSame, (lfsrWritePhase c r).firstData)
      = (r.allSame, r.firstData) :=
  foldl_fix (lfsrWriteStep c) (fun s => (s.1.allSame, s.1.firstData))
    (fun _ _ => rfl) (List.range 1024) (r, lfsr10_init 0x1A3)

/-- The LFSR read sweep leaves `allSame` and `firstData` unchanged. -/
theorem lfsrReadPhase_fix (c : Chip σ) (r : RunSt σ) :
    ((lfsrReadPhase c r).allSame, (lfsrReadPhase c r).firstData)
      = (r.allSame, r.firstData) :=
  foldl_fix (lfsrReadStep c) (fun s => (s.1.allSame, s.1.firstData))
    (fun _ _ => rfl) (List.range 1024) (r, lfsr10_init 0x1A3)

/-- The alternating read loop leaves `allSame` and `firstData` unchanged
along any address list. -/
theorem altReadFold_fix (c : Chip σ) (L : List Nat) (r : RunSt σ) :
    ((L.foldl (altReadStep c) r).allSame, (L.foldl (altReadStep c) r).firstData)
      = (r.allSame, r.firstData) :=
  foldl_fix (altReadStep c) (fun r => (r.allSame, r.firstData))
    (altReadStep_fix c) L r

/-- The checkerboard write sweep leaves `allSame` and `firstData`
unchanged. -/
theorem altWritePhase_fix (c : Chip σ) (r : RunSt σ) :
    ((altWritePhase c r).allSame, (altWritePhase c r).firstData)
      = (r.allSame, r.firstData) := rfl

/-- The checkerboard read sweep leaves `allSame` and `firstData`
unchanged. -/
theorem altReadPhase_fix (c : Chip σ) (r : RunSt σ) :
    ((altReadPhase c r).allSame, (altReadPhase c r).firstData)
      = (r.allSame, r.firstData) :=
  altReadFold_fix c (List.range 1024) r

/-- The closing fill call leaves `allSame` and `firstData` unchanged. -/
theorem finishFill_fix (c : Chip σ) (r : RunSt σ) :
    ((finishFill c r).allSame, (finishFill c r).firstData)
      = (r.allSame, r.firstData) := rfl

/-- The automated checkerboard round leaves `allSame` and `firstData`
unchanged. -/
theorem autoAltPhase_fix (c : Chip σ) (r : RunSt σ) :
    ((autoAltPhase c r).allSame, (autoAltPhase c r).firstData)
      = (r.allSame, r.firstData) := by
  simp only [autoAltPhase]
  rw [checkSweep_fix]

/-- In `runFullTest`, everything after the constant phase leaves `allSame`
and `firstData` unchanged. -/
theorem runFullTest_fix (c : Chip σ) (s0 : σ) :
    ((runFullTest c s0).allSame, (runFullTest c s0).firstData)
      = ((constPhase c (initRun s0)).allSame,
         (constPhase c (initRun s0)).firstData) := by
  simp only [runFullTest]
  rw [finishFill_fix, altReadPhase_fix, altWritePhase_fix]

/-- In `automatedTest`, everything after the constant phase leaves
`allSame` and `firstData` unchanged. -/
theorem automatedTest_fix (c : Chip σ) (s0 : σ) :
    ((automatedTest c s0).allSame, (automatedTest c s0).firstData)
      = ((autoConstPhase c (initRun s0)).allSame,
         (autoConstPhase c (initRun s0)).firstData) := by
  simp only [automatedTest]
  rw [finishFill_fix, lfsrReadPhase_fix, lfsrWritePhase_fix, walkPhase_fix,
    autoAltPhase_fix]

/-! ## Characterising `allSame` through the constant phase -/

/-- The value returned by a constant-phase iteration is the main read. -/
theorem constStepCore_fst (c : Chip σ) (p : Nat) (r : RunSt σ) (a : Nat) :
    (constStepCore c p r a).1 = (busRead c (busWrite c r.bus a p) a).1 := by
  simp only [constStepCore]
  split <;> rfl

/-- On any iteration but the very first, the constant-phase step keeps
`firstData` and records in `allSame` whether the main read matched it. -/
theorem constStep_not_first (c : Chip σ) (p : Nat) (r : RunSt σ) (a : Nat)
    (h : ¬(a = 0 ∧ p = 0)) :
    (constStep c p r a).firstData = r.firstData ∧
    (constStep c p r a).allSame
      = (r.allSame && ((constStepCore c p r a).1 == r.firstData)) := by
  simp only [constStep, constStepCore, if_neg h]
  by_cases hd : (busRead c (busWrite c r.bus a p) a).1 = r.firstData <;>
    split <;> simp [hd]

/-- On the very first iteration the step records the read as `firstData`
and leaves `allSame` alone. -/
theorem constStep_first (c : Chip σ) (r : RunSt σ) :
    (constStep c 0 r 0).firstData = (constStepCore c 0 r 0).1 ∧
    (constStep c 0 r 0).allSame = r.allSame := by
  simp only [constStep, constStepCore, constStepCore_fst]
  constructor <;> split <;> simp

/-- Unfolding equation of `constReadsAux`. -/
theorem constReadsAux_cons (c : Chip σ) (q : Nat × Nat) (L : List (Nat × Nat))
    (r : RunSt σ) :
    constReadsAux c (q :: L) r
      = (constStepCore c q.1 r q.2).1
        :: constReadsAux c L (constStep c q.1 r q.2) := rfl

/-- Along any run of non-first iterations, `firstData` is preserved and the
final `allSame` records whether every main read matched it. -/
theorem constRun_char (c : Chip σ) :
    ∀ (L : List (Nat × Nat)), (∀ q ∈ L, ¬(q.2 = 0 ∧ q.1 = 0)) →
      ∀ (r : RunSt σ),
        (constRun c L r).firstData = r.firstData ∧
        (constRun c L r).allSame
          = (r.allSame && (constReadsAux c L r).all (fun v => v == r.firstData)) := by
  intro L
  induction L with
  | nil =>
      intro _ r
      simp [constRun, constReadsAux]
  | cons q L ih =>
      intro hL r
      have hq : ¬(q.2 = 0 ∧ q.1 = 0) := hL q (List.mem_cons_self q L)
      have hL2 : ∀ x ∈ L, ¬(x.2 = 0 ∧ x.1 = 0) :=
        fun x hx => hL x (List.mem_cons_of_mem q hx)
      have hstep := constStep_not_first c q.1 r q.2 hq
      have hrun : constRun c (q :: L) r = constRun c L (constStep c q.1 r q.2) := rfl
      have ihr := ih hL2 (constStep c q.1 r q.2)
      constructor
      · rw [hrun, ihr.1, hstep.1]
      · rw [hrun, ihr.2, hstep.1, hstep.2, constReadsAux_cons, List.all_cons,
          Bool.and_assoc]

/-- The iteration order of the constant phase, with its first iteration
`(pattern, addr) = (0, 0)` peeled off. -/
theorem constPairs_eq :
    constPairs = ((0 : Nat), (0 : Nat)) :: constPairsTail := by
  unfold constPairs constPairsTail
  rw [show (16 : Nat) = 15 + 1 from rfl, List.range_succ_eq_map, pairsOf_cons,
    show (1024 : Nat) = 1023 + 1 from rfl, List.range_succ_eq_map, List.map_cons]
  rfl

/-- Every iteration after the first has a non-zero address or non-zero
pattern. -/
theorem constPairsTail_ne :
    ∀ q ∈ constPairsTail, ¬(q.2 = 0 ∧ q.1 = 0) := by
  intro q hq
  rw [constPairsTail] at hq
  rcases List.mem_append.mp hq with h1 | h2
  · rcases List.mem_map.mp h1 with ⟨y, hy, rfl⟩
    rcases List.mem_map.mp hy with ⟨z, _, rfl⟩
    intro hc
    exact Nat.succ_ne_zero z hc.1
  · have h3 := mem_pairsOf_left h2
    rcases List.mem_map.mp h3 with ⟨z, _, hz⟩
    intro hc
    exact Nat.succ_ne_zero z (hz.trans hc.2)

/-- The nested loops of the constant phase equal the flat fold over the
iteration pairs. -/
theorem constPhase_eq (c : Chip σ) (r : RunSt σ) :
    constPhase c r = constRun c constPairs r :=
  (foldl_pairsOf (fun p r a => constStep c p r a)
    (List.range 16) (List.range 1024) r).symm

/-- Unfolding equation of `constRun`. -/
theorem constRun_cons (c : Chip σ) (q : Nat × Nat) (L : List (Nat × Nat))
    (r : RunSt σ) :
    constRun c (q :: L) r = constRun c L (constStep c q.1 r q.2) := rfl

/-- The constant phase records the very first read as `firstData`, and its
final `allSame` says exactly that every main read equalled that value. -/
theorem constPhase_char (c : Chip σ) (s0 : σ) :
    (constPhase c (initRun s0)).firstData = (constReads c s0).headI ∧
    (constPhase c (initRun s0)).allSame
      = (constReads c s0).all (fun v => v == (constReads c s0).headI) := by
  have hreads : constReads c s0
      = (constStepCore c 0 (initRun s0) 0).1
        :: constReadsAux c constPairsTail (constStep c 0 (initRun s0) 0) := by
    unfold constReads
    rw [constPairs_eq, constReadsAux_cons,
      show (((0 : Nat), (0 : Nat)).1) = 0 from rfl,
      show (((0 : Nat), (0 : Nat)).2) = 0 from rfl]
  have hphase : constPhase c (initRun s0)
      = constRun c constPairsTail (constStep c 0 (initRun s0) 0) := by
    rw [constPhase_eq, constPairs_eq, constRun_cons,
      show (((0 : Nat), (0 : Nat)).1) = 0 from rfl,
      show (((0 : Nat), (0 : Nat)).2) = 0 from rfl]
  have hchar := constRun_char c constPairsTail constPairsTail_ne
    (constStep c 0 (initRun s0) 0)
  have hfirst := constStep_first c (initRun s0)
  constructor
  · rw [hphase, hchar.1, hfirst.1, hreads, List.headI_cons]
  · rw [hphase, hchar.2, hfirst.2, hfirst.1, hreads, List.headI_cons,
      show (initRun s0).allSame = true from rfl, Bool.true_and, List.all_cons,
      beq_self_eq_true, Bool.true_and]

/-! ## The interactive suite on a healthy memory -/

/-- The checkerboard values are below 16, so masking is the identity. -/
theorem altPattern_mod (a : Nat) : altPattern a % 16 = altPattern a := by
  unfold altPattern
  split <;> rfl

/-- Chronological operations of a bus whose reversed trace gained a write
then a read. -/
theorem ops_rr (m : σ) (o1 o2 : Op) (b : Bus σ) :
    (Bus.mk m (o1 :: o2 :: b.rtrace)).ops = b.ops ++ [o2, o1] := by
  simp [Bus.ops]

/-- Chronological operations of a bus whose reversed trace gained one
operation. -/
theorem ops_r1 (m : σ) (o : Op) (b : Bus σ) :
    (Bus.mk m (o :: b.rtrace)).ops = b.ops ++ [o] := by
  simp [Bus.ops]

/-- On the healthy memory, a constant-phase iteration reads back exactly
what it wrote: no error is counted and the bus gains one write and one
read of the pattern. -/
theorem constStep_healthy (p : Nat) (hp : p < 16) (r : RunSt (Nat → Nat))
    (a : Nat) :
    constStep healthyChip p r a
      = ⟨r.errorCount,
         (if a = 0 ∧ p = 0 then r.allSame
          else if p = r.firstData then r.allSame else false),
         (if a = 0 ∧ p = 0 then p else r.firstData),
         ⟨memWrite r.bus.chip a p, Op.r a p :: Op.w a p :: r.bus.rtrace⟩⟩ := by
  have hmod : p % 16 = p := Nat.mod_eq_of_lt hp
  simp [constStep, constStepCore, busRead, busWrite, healthyChip, memWrite, hmod]

/-- The constant sweep of one pattern on the healthy memory: no errors,
and the only write to address 0 carries the pattern. -/
theorem constFold_healthy (p : Nat) (hp : p < 16) :
    ∀ (L : List Nat) (r : RunSt (Nat → Nat)),
      (L.foldl (constStep healthyChip p) r).errorCount = r.errorCount ∧
      writesTo0 (L.foldl (constStep healthyChip p) r).bus.ops
        = writesTo0 r.bus.ops
          ++ L.filterMap (fun a => if a = 0 then some p else none) := by
  intro L
  induction L with
  | nil => intro r; simp
  | cons x L ih =>
      intro r
      rw [List.foldl_cons]
      have hs := constStep_healthy p hp r x
      constructor
      · rw [(ih _).1, hs]
      · rw [(ih _).2, hs]
        dsimp only
        rw [ops_rr, writesTo0_append, writesTo0_cons_w, writesTo0_cons_r]
        by_cases hx : x = 0 <;>
          simp [hx, writesTo0, List.filterMap_cons, List.append_assoc]

/-- Exactly one address of a full sweep is address 0. -/
theorem range1024_filterMap_zero (p : Nat) :
    (List.range 1024).filterMap (fun a => if a = 0 then some p else none)
      = [p] := by
  rw [show (1024 : Nat) = 1023 + 1 from rfl, List.range_succ_eq_map]
  have hnil : ((List.range 1023).map (· + 1)).filterMap
      (fun a => if a = 0 then some p else none) = [] := by
    rw [List.filterMap_map]
    refine List.filterMap_eq_nil_iff.mpr ?_
    intro a _
    simp [Function.comp]
  simp [List.filterMap_cons, hnil]

/-- The full constant phase on the healthy memory: no errors, and the
writes to address 0 are the patterns in order. -/
theorem constSweeps_healthy :
    ∀ (ps : List Nat), (∀ p ∈ ps, p < 16) →
      ∀ (r : RunSt (Nat → Nat)),
        ((ps.foldl
            (fun r pattern =>
              (List.range 1024).foldl (constStep healthyChip pattern) r) r).errorCount
          = r.errorCount) ∧
        writesTo0 (ps.foldl
            (fun r pattern =>
              (List.range 1024).foldl (constStep healthyChip pattern) r) r).bus.ops
          = writesTo0 r.bus.ops ++ ps := by
  intro ps
  induction ps with
  | nil => intro _ r; simp
  | cons p ps ih =>
      intro hps r
      rw [List.foldl_cons]
      have hp : p < 16 := hps p (List.mem_cons_self p ps)
      have hf := constFold_healthy p hp (List.range 1024) r
      have hih := ih (fun x hx => hps x (List.mem_cons_of_mem p hx))
        ((List.range 1024).foldl (constStep healthyChip p) r)
      constructor
      · rw [hih.1, hf.1]
      · rw [hih.2, hf.2, range1024_filterMap_zero, List.append_assoc]
        rfl

/-- The constant phase on the healthy memory, packaged for the phase
composition. -/
theorem constPhase_healthy (r : RunSt (Nat → Nat)) :
    (constPhase healthyChip r).errorCount = r.errorCount ∧
    writesTo0 (constPhase healthyChip r).bus.ops
      = writesTo0 r.bus.ops ++ List.range 16 :=
  constSweeps_healthy (List.range 16) (fun _ hp => List.mem_range.mp hp) r

/-- On the healthy memory, one alternating-phase read finds the
checkerboard value it expects: no error, chip untouched, one read on the
bus. -/
theorem altReadStep_healthy (r : RunSt (Nat → Nat)) (a : Nat)
    (hx : r.bus.chip a % 16 = altPattern a) :
    altReadStep healthyChip r a
      = ⟨r.errorCount, r.allSame, r.firstData,
         ⟨r.bus.chip, Op.r a (altPattern a) :: r.bus.rtrace⟩⟩ := by
  simp [altReadStep, busRead, healthyChip, hx]

/-- The alternating read sweep on the healthy memory holding the
checkerboard values: no errors, chip untouched, no writes. -/
theorem altReadFold_healthy :
    ∀ (L : List Nat) (r : RunSt (Nat → Nat)),
      (∀ a ∈ L, r.bus.chip a % 16 = altPattern a) →
      ((L.foldl (altReadStep healthyChip) r).errorCount = r.errorCount ∧
       (L.foldl (altReadStep healthyChip) r).bus.chip = r.bus.chip ∧
       writesTo0 (L.foldl (altReadStep healthyChip) r).bus.ops
         = writesTo0 r.bus.ops) := by
  intro L
  induction L with
  | nil => intro r _; exact ⟨rfl, rfl, rfl⟩
  | cons x L ih =>
      intro r h
      rw [List.foldl_cons]
      have hs := altReadStep_healthy r x (h x (List.mem_cons_self x L))
      have hih := ih (altReadStep healthyChip r x) (by
        intro a ha
        rw [hs]
        exact h a (List.mem_cons_of_mem x ha))
      refine ⟨?_, ?_, ?_⟩
      · rw [hih.1, hs]
      · rw [hih.2.1, hs]
      · rw [hih.2.2, hs]
        dsimp only
        rw [ops_r1, writesTo0_append, writesTo0_cons_r]
        simp [writesTo0]

/-! ## Sweep order of the two suites -/

/-- A walking-bit round contributes its two sweep patterns to
`writesTo0`, on any chip. -/
theorem writesTo0_walkRound (c : Chip σ) (r : RunSt σ) (bit : Nat) :
    writesTo0 (walkRound c r bit).bus.ops
      = writesTo0 r.bus.ops
        ++ [((1 <<< bit) &&& 0xF) % 16, (((1 <<< bit) ^^^ 0xF) &&& 0xF) % 16] := by
  simp only [walkRound]
  rw [writesTo0_checkSweep]
  dsimp only
  rw [writesTo0_writeSweep, writesTo0_checkSweep]
  dsimp only
  rw [writesTo0_writeSweep]
  simp [List.append_assoc]

/-- The walking-bit phase performs its 8 sweeps in bit order, set pattern
then clear pattern, on any chip. -/
theorem writesTo0_walkPhase (c : Chip σ) (r : RunSt σ) :
    writesTo0 (walkPhase c r).bus.ops
      = writesTo0 r.bus.ops
        ++ [0x1, 0xE, 0x2, 0xD, 0x4, 0xB, 0x8, 0x7] := by
  show writesTo0 ((List.range 4).foldl (walkRound c) r).bus.ops = _
  rw [show List.range 4 = [0, 1, 2, 3] from rfl, List.foldl_cons, List.foldl_cons,
    List.foldl_cons, List.foldl_cons, List.foldl_nil,
    writesTo0_walkRound, writesTo0_walkRound, writesTo0_walkRound,
    writesTo0_walkRound,
    show ((1 <<< 0) &&& 0xF) % 16 = 0x1 from by decide,
    show (((1 <<< 0) ^^^ 0xF) &&& 0xF) % 16 = 0xE from by decide,
    show ((1 <<< 1) &&& 0xF) % 16 = 0x2 from by decide,
    show (((1 <<< 1) ^^^ 0xF) &&& 0xF) % 16 = 0xD from by decide,
    show ((1 <<< 2) &&& 0xF) % 16 = 0x4 from by decide,
    show (((1 <<< 2) ^^^ 0xF) &&& 0xF) % 16 = 0xB from by decide,
    show ((1 <<< 3) &&& 0xF) % 16 = 0x8 from by decide,
    show (((1 <<< 3) ^^^ 0xF) &&& 0xF) % 16 = 0x7 from by decide]
  simp [List.append_assoc]

/-- One constant round of `automatedTest` contributes its (masked) pattern
to `writesTo0`, on any chip. -/
theorem writesTo0_autoConstRound (c : Chip σ) (r : RunSt σ) (p : Nat) :
    writesTo0 (autoConstRound c r p).bus.ops
      = writesTo0 r.bus.ops ++ [(p &&& 0xF) % 16] := by
  simp only [autoConstRound]
  rw [writesTo0_autoConstReads]
  rw [writesTo0_writeSweep]

/-- The constant rounds of `automatedTest` contribute their patterns in
order. -/
theorem writesTo0_autoConstFold (c : Chip σ) :
    ∀ (ps : List Nat) (r : RunSt σ),
      writesTo0 (ps.foldl (autoConstRound c) r).bus.ops
        = writesTo0 r.bus.ops ++ ps.map (fun p => (p &&& 0xF) % 16) := by
  intro ps
  induction ps with
  | nil => intro r; simp
  | cons p ps ih =>
      intro r
      rw [List.foldl_cons, ih, writesTo0_autoConstRound, List.map_cons,
        List.append_assoc]
      rfl

/-- The constant phase of `automatedTest` writes the constants 0..15 at
address 0, in order. -/
theorem writesTo0_autoConstPhase (c : Chip σ) (r : RunSt σ) :
    writesTo0 (autoConstPhase c r).bus.ops
      = writesTo0 r.bus.ops ++ List.range 16 := by
  have h := writesTo0_autoConstFold c (List.range 16) r
  rw [show (List.range 16).map (fun p => (p &&& 0xF) % 16) = List.range 16
    from by decide] at h
  exact h

/-- The automated checkerboard round contributes `0xA` to `writesTo0`. -/
theorem writesTo0_autoAltPhase (c : Chip σ) (r : RunSt σ) :
    writesTo0 (autoAltPhase c r).bus.ops
      = writesTo0 r.bus.ops ++ [0xA] := by
  simp only [autoAltPhase]
  rw [writesTo0_checkSweep]
  rw [writesTo0_writeSweep, show (altPattern 0 &&& 0xF) % 16 = 0xA from by decide]

/-- The interactive checkerboard write sweep contributes `0xA` to
`writesTo0`. -/
theorem writesTo0_altWritePhase (c : Chip σ) (r : RunSt σ) :
    writesTo0 (altWritePhase c r).bus.ops
      = writesTo0 r.bus.ops ++ [0xA] := by
  simp only [altWritePhase]
  rw [writesTo0_writeSweep, show altPattern 0 % 16 = 0xA from by decide]

/-- The fill pass contributes `0xF` to `writesTo0`. -/
theorem writesTo0_finishFill (c : Chip σ) (r : RunSt σ) :
    writesTo0 (finishFill c r).bus.ops = writesTo0 r.bus.ops ++ [0xF] := by
  have hfill : writesTo0 fillOps = [0xF] := by
    unfold fillOps
    exact writesTo0_mapRange (fun _ => 0xF)
  simp only [finishFill]
  rw [fillMemory_ops, writesTo0_append, hfill]

/-- The fill pass does not alter the error count. -/
theorem finishFill_ec (c : Chip σ) (r : RunSt σ) :
    (finishFill c r).errorCount = r.errorCount := rfl

/-- The interactive checkerboard write sweep does not alter the error
count. -/
theorem altWritePhase_ec (c : Chip σ) (r : RunSt σ) :
    (altWritePhase c r).errorCount = r.errorCount := rfl

/-- After the interactive checkerboard write sweep on the healthy memory,
every address holds its checkerboard value. -/
theorem altWritePhase_chip (r : RunSt (Nat → Nat)) (a : Nat) (h : a < 1024) :
    (altWritePhase healthyChip r).bus.chip a % 16 = altPattern a := by
  show (writeSweep healthyChip altPattern r.bus).chip a % 16 = _
  rw [writeSweep_chip altPattern r.bus a h, altPattern_mod, altPattern_mod]

/-- The interactive checkerboard read phase on the healthy memory holding
the checkerboard values: no errors and no writes. -/
theorem altReadPhase_healthy (r : RunSt (Nat → Nat))
    (h : ∀ a ∈ List.range 1024, r.bus.chip a % 16 = altPattern a) :
    (altReadPhase healthyChip r).errorCount = r.errorCount ∧
    writesTo0 (altReadPhase healthyChip r).bus.ops = writesTo0 r.bus.ops :=
  ⟨(altReadFold_healthy (List.range 1024) r h).1,
   (altReadFold_healthy (List.range 1024) r h).2.2⟩

/-- On a healthy memory, the interactive full test performs, in order, the
sixteen constant sweeps, the checkerboard sweep and the fill pass — and
nothing else — and counts no errors. -/
theorem runFullTest_healthy_facts :
    writesTo0 (runFullTest healthyChip mem0).bus.ops
      = List.range 16 ++ [0xA] ++ [0xF] ∧
    (runFullTest healthyChip mem0).errorCount = 0 := by
  have h1 := constPhase_healthy (initRun mem0)
  have h2w := writesTo0_altWritePhase healthyChip
    (constPhase healthyChip (initRun mem0))
  have h3 := altReadPhase_healthy
    (altWritePhase healthyChip (constPhase healthyChip (initRun mem0)))
    (fun a ha => altWritePhase_chip _ a (List.mem_range.mp ha))
  constructor
  · show writesTo0 (finishFill healthyChip (altReadPhase healthyChip
      (altWritePhase healthyChip (constPhase healthyChip (initRun mem0))))).bus.ops
      = _
    rw [writesTo0_finishFill, h3.2, h2w, h1.2,
      show writesTo0 (initRun mem0).bus.ops = ([] : List Nat) from rfl]
    simp [List.append_assoc]
  · show (finishFill healthyChip (altReadPhase healthyChip
      (altWritePhase healthyChip (constPhase healthyChip (initRun mem0))))).errorCount
      = 0
    rw [finishFill_ec, h3.1, altWritePhase_ec, h1.1]
    rfl

/-- `automatedTest` performs, in order, the sixteen constant sweeps, the
checkerboard sweep, the 8 walking-bit sweeps, the LFSR sweep and the fill
pass — whatever chip is on the bus, since this variant issues no
data-dependent writes. -/
theorem automatedTest_writesTo0 (σ : Type) (c : Chip σ) (s0 : σ) :
    writesTo0 (automatedTest c s0).bus.ops = claimedSweepHeadsLfsr := by
  show writesTo0 (finishFill c (lfsrReadPhase c (lfsrWritePhase c (walkPhase c
    (autoAltPhase c (autoConstPhase c (initRun s0))))))).bus.ops = _
  rw [writesTo0_finishFill, writesTo0_lfsrReadPhase, writesTo0_lfsrWritePhase,
    writesTo0_walkPhase, writesTo0_autoAltPhase, writesTo0_autoConstPhase,
    show writesTo0 (initRun s0).bus.ops = ([] : List Nat) from rfl]
  simp [claimedSweepHeadsLfsr, List.append_assoc]

/-! ## Behaviour of `automatedTest` on the write-counting chip

On `countWritesChip` the chip state is the number of writes performed so
far.  The constant phase of `automatedTest` performs exactly
16 * 1024 = 16384 writes, so all of its reads (which happen below the
17000-write threshold) return `0x5`; the checkerboard write sweep then
pushes the count to 17408, so every later read returns `0x6`. -/

/-- A write fold on the counting chip advances the count by the number of
addresses. -/
theorem writeFold_count (pf : Nat → Nat) :
    ∀ (L : List Nat) (b : Bus Nat),
      (L.foldl (fun b a => busWrite countWritesChip b a (pf a)) b).chip
        = b.chip + L.length := by
  intro L
  induction L with
  | nil => intro b; rfl
  | cons a L ih =>
      intro b
      rw [List.foldl_cons, ih,
        show (busWrite countWritesChip b a (pf a)).chip = b.chip + 1 from rfl,
        List.length_cons]
      omega

/-- A write sweep on the counting chip advances the count by 1024. -/
theorem writeSweep_count (pf : Nat → Nat) (b : Bus Nat) :
    (writeSweep countWritesChip pf b).chip = b.chip + 1024 := by
  show ((List.range 1024).foldl
    (fun b a => busWrite countWritesChip b a (pf a)) b).chip = b.chip + 1024
  rw [writeFold_count pf (List.range 1024) b, List.length_range]

/-- Below the threshold, a constant-phase read step on the counting chip
reads `0x5`; it keeps `allSame = true` and `firstData = 5` and does not
move the write count. -/
theorem autoConstReadStep_count (p : Nat) (r : RunSt Nat) (a : Nat)
    (hc : r.bus.chip < 17000) (hs : r.allSame = true) (hf : r.firstData = 5) :
    (autoConstReadStep countWritesChip p r a).allSame = true ∧
    (autoConstReadStep countWritesChip p r a).firstData = 5 ∧
    (autoConstReadStep countWritesChip p r a).bus.chip = r.bus.chip := by
  simp [autoConstReadStep, busRead, countWritesChip, hc, hs, hf,
    show (5 : Nat) &&& 15 = 5 from by decide]

/-- The very first constant-phase read step (addr 0, pattern 0) on the
counting chip below the threshold records `firstData = 5`. -/
theorem autoConstReadStep_first (r : RunSt Nat) (hc : r.bus.chip < 17000)
    (hs : r.allSame = true) :
    (autoConstReadStep countWritesChip 0 r 0).allSame = true ∧
    (autoConstReadStep countWritesChip 0 r 0).firstData = 5 ∧
    (autoConstReadStep countWritesChip 0 r 0).bus.chip = r.bus.chip := by
  simp [autoConstReadStep, busRead, countWritesChip, hc, hs,
    show (5 : Nat) &&& 15 = 5 from by decide]

/-- The constant-phase read fold on the counting chip preserves
`allSame = true`, `firstData = 5` and the write count, as long as the
count stays below the threshold. -/
theorem autoReadFold_count (p : Nat) :
    ∀ (L : List Nat) (r : RunSt Nat), r.bus.chip < 17000 → r.allSame = true →
      r.firstData = 5 →
      (L.foldl (autoConstReadStep countWritesChip p) r).allSame = true ∧
      (L.foldl (autoConstReadStep countWritesChip p) r).firstData = 5 ∧
      (L.foldl (autoConstReadStep countWritesChip p) r).bus.chip
        = r.bus.chip := by
  intro L
  induction L with
  | nil => intro r _ hs hf; exact ⟨hs, hf, rfl⟩
  | cons a L ih =>
      intro r hc hs hf
      obtain ⟨h1, h2, h3⟩ := autoConstReadStep_count p r a hc hs hf
      rw [List.foldl_cons]
      obtain ⟨g1, g2, g3⟩ := ih (autoConstReadStep countWritesChip p r a)
        (by rw [h3]; exact hc) h1 h2
      exact ⟨g1, g2, g3.trans h3⟩

/-- One constant round on the counting chip below the threshold: the flags
persist and the count advances by the 1024 writes of its write sweep. -/
theorem autoConstRound_count (r : RunSt Nat) (p : Nat)
    (hc : r.bus.chip + 1024 < 17000) (hs : r.allSame = true)
    (hf : r.firstData = 5) :
    (autoConstRound countWritesChip r p).allSame = true ∧
    (autoConstRound countWritesChip r p).firstData = 5 ∧
    (autoConstRound countWritesChip r p).bus.chip = r.bus.chip + 1024 := by
  have hw : ({ r with
      bus := writeSweep countWritesChip (fun _ => p &&& 0xF) r.bus } :
      RunSt Nat).bus.chip = r.bus.chip + 1024 := by
    show (writeSweep countWritesChip (fun _ => p &&& 0xF) r.bus).chip
      = r.bus.chip + 1024
    exact writeSweep_count (fun _ => p &&& 0xF) r.bus
  obtain ⟨g1, g2, g3⟩ := autoReadFold_count p (List.range 1024)
    { r with bus := writeSweep countWritesChip (fun _ => p &&& 0xF) r.bus }
    (by rw [hw]; exact hc) hs hf
  simp only [autoConstRound]
  exact ⟨g1, g2, g3.trans hw⟩

/-- Constant rounds on the counting chip, along any pattern list whose
writes stay below the threshold: the flags persist and the count advances
by 1024 per round. -/
theorem autoConstRounds_count :
    ∀ (ps : List Nat) (r : RunSt Nat), r.allSame = true → r.firstData = 5 →
      r.bus.chip + 1024 * ps.length < 17000 →
      (ps.foldl (autoConstRound countWritesChip) r).allSame = true ∧
      (ps.foldl (autoConstRound countWritesChip) r).firstData = 5 ∧
      (ps.foldl (autoConstRound countWritesChip) r).bus.chip
        = r.bus.chip + 1024 * ps.length := by
  intro ps
  induction ps with
  | nil => intro r hs hf _; exact ⟨hs, hf, by simp⟩
  | cons p ps ih =>
      intro r hs hf hc
      rw [List.length_cons] at hc
      rw [List.foldl_cons]
      obtain ⟨h1, h2, h3⟩ := autoConstRound_count r p (by omega) hs hf
      obtain ⟨g1, g2, g3⟩ := ih (autoConstRound countWritesChip r p) h1 h2
        (by rw [h3]; omega)
      refine ⟨g1, g2, ?_⟩
      rw [g3, h3, List.length_cons]
      ring

/-- After the constant phase of `automatedTest` on the counting chip:
`allSame` is still `true`, `firstData = 5`, and exactly 16384 writes have
happened. -/
theorem autoConstPhase_count :
    (autoConstPhase countWritesChip (initRun 0)).allSame = true ∧
    (autoConstPhase countWritesChip (initRun 0)).firstData = 5 ∧
    (autoConstPhase countWritesChip (initRun 0)).bus.chip = 16384 := by
  have hr0 : (autoConstRound countWritesChip (initRun 0) 0).allSame = true ∧
      (autoConstRound countWritesChip (initRun 0) 0).firstData = 5 ∧
      (autoConstRound countWritesChip (initRun 0) 0).bus.chip = 1024 := by
    have hw : ({ initRun 0 with
        bus := writeSweep countWritesChip (fun _ => 0 &&& 0xF)
          (initRun 0).bus } : RunSt Nat).bus.chip = 1024 := by
      show (writeSweep countWritesChip (fun _ => 0 &&& 0xF)
        (initRun 0).bus).chip = 1024
      rw [writeSweep_count]
      rfl
    have hsplit2 : List.range 1024 = 0 :: (List.range 1023).map Nat.succ := by
      rw [show (1024 : Nat) = 1023 + 1 from by norm_num, List.range_succ_eq_map]
    obtain ⟨h1, h2, h3⟩ := autoConstReadStep_first
      { initRun 0 with
        bus := writeSweep countWritesChip (fun _ => 0 &&& 0xF) (initRun 0).bus }
      (by rw [hw]; omega) rfl
    obtain ⟨g1, g2, g3⟩ := autoReadFold_count 0 ((List.range 1023).map Nat.succ)
      (autoConstReadStep countWritesChip 0
        { initRun 0 with
          bus := writeSweep countWritesChip (fun _ => 0 &&& 0xF)
            (initRun 0).bus } 0)
      (by rw [h3, hw]; omega) h1 h2
    simp only [autoConstRound]
    rw [hsplit2, List.foldl_cons]
    exact ⟨g1, g2, (g3.trans h3).trans hw⟩
  have hsplit : List.range 16 = 0 :: (List.range 15).map Nat.succ := by
    rw [show (16 : Nat) = 15 + 1 from by norm_num, List.range_succ_eq_map]
  obtain ⟨g1, g2, g3⟩ := autoConstRounds_count ((List.range 15).map Nat.succ)
    (autoConstRound countWritesChip (initRun 0) 0) hr0.1 hr0.2.1
    (by rw [hr0.2.2, List.length_map, List.length_range]; omega)
  show ((List.range 16).foldl (autoConstRound countWritesChip)
    (initRun 0)).allSame = true ∧
    ((List.range 16).foldl (autoConstRound countWritesChip)
      (initRun 0)).firstData = 5 ∧
    ((List.range 16).foldl (autoConstRound countWritesChip)
      (initRun 0)).bus.chip = 16384
  rw [hsplit, List.foldl_cons]
  refine ⟨g1, g2, ?_⟩
  rw [g3, hr0.2.2, List.length_map, List.length_range]

/-! ## The trace only grows -/

/-- `Extends` composes. -/
theorem Bus.Extends.trans {b3 b2 b1 : Bus σ} (h2 : Bus.Extends b3 b2)
    (h1 : Bus.Extends b2 b1) : Bus.Extends b3 b1 := by
  obtain ⟨t2, ht2⟩ := h2
  obtain ⟨t1, ht1⟩ := h1
  exact ⟨t2 ++ t1, by rw [ht2, ht1, List.append_assoc]⟩

/-- An operation in the trace stays there as the trace extends. -/
theorem Bus.Extends.mem {b2 b1 : Bus σ} (h : Bus.Extends b2 b1) (o : Op)
    (ho : o ∈ b1.rtrace) : o ∈ b2.rtrace := by
  obtain ⟨t, ht⟩ := h
  rw [ht]
  exact List.mem_append_right t ho

/-- A fold whose every step extends the trace extends the trace. -/
theorem foldl_extends (g : γ → α → γ) (pb : γ → Bus σ)
    (h : ∀ s a, Bus.Extends (pb (g s a)) (pb s)) :
    ∀ (L : List α) (s : γ), Bus.Extends (pb (L.foldl g s)) (pb s) := by
  intro L
  induction L with
  | nil => intro s; exact ⟨[], rfl⟩
  | cons a L ih =>
      intro s
      rw [List.foldl_cons]
      exact (ih (g s a)).trans (h s a)

/-- A write sweep extends the trace. -/
theorem writeSweep_extends (c : Chip σ) (pf : Nat → Nat) (b : Bus σ) :
    Bus.Extends (writeSweep c pf b) b := by
  show Bus.Extends ((List.range 1024).foldl
    (fun b a => busWrite c b a (pf a)) b) b
  exact foldl_extends (fun b a => busWrite c b a (pf a)) (fun b => b)
    (fun s a => ⟨[Op.w a (pf a % 16)], rfl⟩) (List.range 1024) b

/-- A check sweep extends the trace. -/
theorem checkSweep_extends (c : Chip σ) (pf : Nat → Nat) (r : RunSt σ) :
    Bus.Extends (checkSweep c pf r).bus r.bus := by
  show Bus.Extends (((List.range 1024).foldl (checkStep c pf) r)).bus r.bus
  exact foldl_extends (checkStep c pf) (fun r => r.bus)
    (fun s a => ⟨[Op.r a ((c.read s.bus.chip a).1 % 16)], rfl⟩)
    (List.range 1024) r

/-- A write-then-check round extends the trace. -/
theorem wc_extends (c : Chip σ) (pf : Nat → Nat) (r : RunSt σ) :
    Bus.Extends (checkSweep c pf { r with bus := writeSweep c pf r.bus }).bus
      r.bus := by
  refine (checkSweep_extends c pf _).trans ?_
  show Bus.Extends (writeSweep c pf r.bus) r.bus
  exact writeSweep_extends c pf r.bus

/-- A walking-bit round extends the trace. -/
theorem walkRound_extends (c : Chip σ) (r : RunSt σ) (bit : Nat) :
    Bus.Extends (walkRound c r bit).bus r.bus := by
  simp only [walkRound]
  exact (wc_extends c (fun _ => ((1 <<< bit) ^^^ 0xF) &&& 0xF)
      (checkSweep c (fun _ => (1 <<< bit) &&& 0xF)
        { r with bus := writeSweep c (fun _ => (1 <<< bit) &&& 0xF) r.bus })).trans
    (wc_extends c (fun _ => (1 <<< bit) &&& 0xF) r)

/-- The walking-bit phase extends the trace. -/
theorem walkPhase_extends (c : Chip σ) (r : RunSt σ) :
    Bus.Extends (walkPhase c r).bus r.bus := by
  show Bus.Extends (((List.range 4).foldl (walkRound c) r)).bus r.bus
  exact foldl_extends (walkRound c) (fun r => r.bus)
    (walkRound_extends c) (List.range 4) r

/-- The LFSR write sweep extends the trace. -/
theorem lfsrWritePhase_extends (c : Chip σ) (r : RunSt σ) :
    Bus.Extends (lfsrWritePhase c r).bus r.bus := by
  show Bus.Extends ((((List.range 1024).foldl (lfsrWriteStep c)
    (r, lfsr10_init 0x1A3))).1.bus) r.bus
  exact foldl_extends (lfsrWriteStep c) (fun s => s.1.bus)
    (fun s a => ⟨[Op.w a (((lfsr10_next s.2).1 &&& 0xF) % 16)], rfl⟩)
    (List.range 1024) (r, lfsr10_init 0x1A3)

/-- The LFSR read sweep extends the trace. -/
theorem lfsrReadPhase_extends (c : Chip σ) (r : RunSt σ) :
    Bus.Extends (lfsrReadPhase c r).bus r.bus := by
  show Bus.Extends ((((List.range 1024).foldl (lfsrReadStep c)
    (r, lfsr10_init 0x1A3))).1.bus) r.bus
  exact foldl_extends (lfsrReadStep c) (fun s => s.1.bus)
    (fun s a => ⟨[Op.r a ((c.read s.1.bus.chip a).1 % 16)], rfl⟩)
    (List.range 1024) (r, lfsr10_init 0x1A3)

/-- The fill pass extends the trace. -/
theorem finishFill_extends (c : Chip σ) (r : RunSt σ) :
    Bus.Extends (finishFill c r).bus r.bus := by
  show Bus.Extends (fillMemory c r.bus 0xF) r.bus
  show Bus.Extends (writeSweep c (fun _ => 0xF) r.bus) r.bus
  exact writeSweep_extends c _ r.bus

/-- `automatedTest` only appends to the trace after its checkerboard
round. -/
theorem automatedTest_extends (c : Chip σ) (s0 : σ) :
    Bus.Extends (automatedTest c s0).bus
      (autoAltPhase c (autoConstPhase c (initRun s0))).bus := by
  show Bus.Extends (finishFill c (lfsrReadPhase c (lfsrWritePhase c (walkPhase c
    (autoAltPhase c (autoConstPhase c (initRun s0))))))).bus _
  exact (finishFill_extends c _).trans ((lfsrReadPhase_extends c _).trans
    ((lfsrWritePhase_extends c _).trans (walkPhase_extends c _)))

/-- On the counting chip past the threshold, a check sweep records a read
of `0x6` at address 0 in the trace. -/
theorem checkSweep_count_six (pf : Nat → Nat) (r : RunSt Nat)
    (hc : 17000 ≤ r.bus.chip) :
    Op.r 0 6 ∈ (checkSweep countWritesChip pf r).bus.rtrace := by
  show Op.r 0 6
    ∈ ((List.range 1024).foldl (checkStep countWritesChip pf) r).bus.rtrace
  rw [show List.range 1024 = 0 :: (List.range 1023).map Nat.succ from by
    rw [show (1024 : Nat) = 1023 + 1 from by norm_num, List.range_succ_eq_map]]
  rw [List.foldl_cons]
  have h1 : (checkStep countWritesChip pf r 0).bus.rtrace
      = Op.r 0 6 :: r.bus.rtrace := by
    simp [checkStep, busRead, countWritesChip, Nat.not_lt.mpr hc]
  exact (foldl_extends (checkStep countWritesChip pf) (fun r => r.bus)
    (fun s a => ⟨[Op.r a ((countWritesChip.read s.bus.chip a).1 % 16)], rfl⟩)
    ((List.range 1023).map Nat.succ) (checkStep countWritesChip pf r 0)).mem
    (Op.r 0 6) (by rw [h1]; exact List.mem_cons_self _ _)

/-- The checkerboard round of `automatedTest` on the counting chip reads
`0x6`: the constant phase performed 16384 writes and the checkerboard
write sweep 1024 more, past the 17000 threshold. -/
theorem autoAlt_six :
    Op.r 0 6 ∈ (autoAltPhase countWritesChip
      (autoConstPhase countWritesChip (initRun 0))).bus.rtrace := by
  simp only [autoAltPhase]
  apply checkSweep_count_six
  show 17000 ≤ (writeSweep countWritesChip (fun a => altPattern a &&& 0xF)
    (autoConstPhase countWritesChip (initRun 0)).bus).chip
  rw [writeSweep_count, autoConstPhase_count.2.2]
  omega

/-- The full automated run on the counting chip contains a read of `0x6`
— while `allSame` stays `true` with `firstData = 5`. -/
theorem automatedTest_count_six :
    6 ∈ readVals (automatedTest countWritesChip 0).bus.ops := by
  have hm : Op.r 0 6 ∈ (automatedTest countWritesChip 0).bus.rtrace :=
    (automatedTest_extends countWritesChip 0).mem (Op.r 0 6) autoAlt_six
  exact List.mem_filterMap.mpr
    ⟨Op.r 0 6, List.mem_reverse.mpr hm, rfl⟩

/-! ## The claims -/

/-- C1: for every address in [0,1023] and value in [0,15], reading back
immediately after writing returns the value: the pin-level bit encodings of
`writeData`/`setDataBits` and the decodings of `readData` are mutually
inverse in both variants, and on the simulated bus model of a healthy chip
the round trip is the identity. -/
theorem dataBits_roundtrip (m : PinMem) (b : Bus (Nat → Nat))
    (addr value : Nat) (hval : value < 16) :
    readDataMain (writeDataMain m addr value) addr = value ∧
    readDataSkjerk (writeDataSkjerk m addr value) addr = value ∧
    (busRead healthyChip (busWrite healthyChip b addr value) addr).1
      = value := by
  have hcore : ∀ v : Nat, v < 16 →
      readAssembleMain (setDataBitsMain v) = v ∧
      readAssembleSkjerk (setDataBitsSkjerk v) = v := by decide
  refine ⟨?_, ?_, ?_⟩
  · show readAssembleMain (writeDataMain m addr value addr) = value
    rw [show writeDataMain m addr value addr = setDataBitsMain value from by
      simp [writeDataMain]]
    exact (hcore value hval).1
  · show readAssembleSkjerk (writeDataSkjerk m addr value addr) = value
    rw [show writeDataSkjerk m addr value addr = setDataBitsSkjerk value from by
      simp [writeDataSkjerk]]
    exact (hcore value hval).2
  · show (healthyChip.read
      (healthyChip.write b.chip addr (value % 16)) addr).1 % 16 = value
    simp [healthyChip, memWrite, Nat.mod_eq_of_lt hval]

/-- Witness for C1 at `addr = 5`, `value = 3`. -/
theorem dataBits_roundtrip_witness :
    (3 : Nat) < 16 ∧
    readDataMain (writeDataMain (fun _ _ => false) 5 3) 5 = 3 :=
  ⟨by decide,
    (dataBits_roundtrip (fun _ _ => false) ⟨mem0, []⟩ 5 3 (by decide)).1⟩

/-- C2 (counterexample): the interactive `runFullTest` does NOT perform the
walking-bit sweeps the specification lists for `runFullSuite`: on a healthy
memory its sweep sequence (the writes at address 0) lacks them. -/
theorem suite_order_claim_cex :
    writesTo0 (runFullTest healthyChip mem0).bus.ops ≠ claimedSweepHeads := by
  rw [runFullTest_healthy_facts.1]
  decide

/-- C2 (amended): `automatedTest` performs, in order, the constant sweeps
0..15, the checkerboard sweep, the walking-bit sweeps, the LFSR sweep and
the fill pass — on any chip; the interactive `runFullTest` performs only
the constant sweeps, the checkerboard sweep and the fill pass (shown on a
healthy memory, which also yields zero errors). -/
theorem suite_order_amended (σ : Type) (c : Chip σ) (s0 : σ) :
    writesTo0 (automatedTest c s0).bus.ops = claimedSweepHeadsLfsr ∧
    writesTo0 (runFullTest healthyChip mem0).bus.ops
      = List.range 16 ++ [0xA] ++ [0xF] ∧
    (runFullTest healthyChip mem0).errorCount = 0 := by
  refine ⟨?_, ?_, ?_⟩
  · exact automatedTest_writesTo0 σ c s0
  · exact runFullTest_healthy_facts.1
  · exact runFullTest_healthy_facts.2

/-- C3 (counterexample): `allSame` is NOT cleared by every later read that
differs from the first-seen value: on the write-counting chip the whole
automated run ends with `allSame = true` and `firstData = 5`, yet the run
contains a read returning 6. -/
theorem allsame_flag_claim_cex :
    (automatedTest countWritesChip 0).allSame = true ∧
    (automatedTest countWritesChip 0).firstData = 5 ∧
    6 ∈ readVals (automatedTest countWritesChip 0).bus.ops ∧
    (6 : Nat) ≠ 5 := by
  have hfix := automatedTest_fix countWritesChip 0
  rw [Prod.mk.injEq] at hfix
  refine ⟨?_, ?_, automatedTest_count_six, by decide⟩
  · exact hfix.1.trans autoConstPhase_count.1
  · exact hfix.2.trans autoConstPhase_count.2.1

/-- C3 (amended): only the constant-pattern phase updates `firstData` and
`allSame` — the later phases of both variants leave them unchanged — and
within that phase `firstData` is the first constant-phase read and
`allSame` holds exactly when every constant-phase main read equals it. -/
theorem allsame_const_reads (σ : Type) (c : Chip σ) (s0 : σ) :
    ((automatedTest c s0).allSame, (automatedTest c s0).firstData)
      = ((autoConstPhase c (initRun s0)).allSame,
         (autoConstPhase c (initRun s0)).firstData) ∧
    (runFullTest c s0).firstData = (constReads c s0).headI ∧
    (runFullTest c s0).allSame
      = (constReads c s0).all (fun v => v == (constReads c s0).headI) := by
  have h := runFullTest_fix c s0
  rw [Prod.mk.injEq] at h
  refine ⟨?_, ?_, ?_⟩
  · exact automatedTest_fix c s0
  · exact h.2.trans (constPhase_char c s0).1
  · exact h.1.trans (constPhase_char c s0).2

/-- C4: each `lfsr10_next` step XORs bits 9 and 6 into the feedback bit,
shifts left, injects the feedback at bit 0, masks to 10 bits, and returns
the low 4 bits of the new state; the LFSR write sweep writes the successive
outputs to the successive addresses in order. -/
theorem lfsr10_next_step :
    (∀ s : Nat, s < 1024 →
      (lfsr10_next ⟨s⟩).2.state = (2 * s + lfsrFeedback s) % 1024 ∧
      (lfsr10_next ⟨s⟩).1 = ((2 * s + lfsrFeedback s) % 1024) % 16) ∧
    ∀ (σ : Type) (c : Chip σ) (r : RunSt σ),
      (lfsrWritePhase c r).bus.ops
        = r.bus.ops
          ++ ((List.range 1024).zip (lfsrOutputs (lfsr10_init 0x1A3) 1024)).map
              (fun q => Op.w q.1 q.2) :=
  ⟨by decide, fun σ c r => lfsrWritePhase_ops c r⟩

/-- Witness for C4 at the sketch's seed state `0x1A3`. -/
theorem lfsr10_next_step_witness :
    (0x1A3 : Nat) < 1024 ∧
    (lfsr10_next ⟨0x1A3⟩).2.state = (2 * 0x1A3 + lfsrFeedback 0x1A3) % 1024 :=
  ⟨by decide, (lfsr10_next_step.1 0x1A3 (by decide)).1⟩

/-- C5: seeding the LFSR with 0 substitutes the non-zero fallback 0x1: the
initial state and hence the whole output sequence, of any length, coincide
with those for seed 0x1. -/
theorem lfsr10_zero_seed (n : Nat) :
    lfsr10_init 0 = lfsr10_init 0x1 ∧
    lfsrOutputs (lfsr10_init 0) n = lfsrOutputs (lfsr10_init 0x1) n :=
  ⟨rfl, rfl⟩

/-- C6: the presence check writes `0xA` to address 0 and reads it back
(exactly those two bus operations), and flags the chip absent precisely
when the read-back value is `0x0` or `0xF`. -/
theorem presence_check_degenerate (σ : Type) (c : Chip σ) (s0 : σ) :
    ((presenceCheck c s0).1 = true ↔
      presenceReadBack c s0 = 0x0 ∨ presenceReadBack c s0 = 0xF) ∧
    (presenceCheck c s0).2.ops
      = [Op.w 0 0xA, Op.r 0 (presenceReadBack c s0)] := by
  constructor
  · show ((presenceReadBack c s0 == 0x0 || presenceReadBack c s0 == 0xF)
      = true ↔ _)
    simp
  · rfl

/-- C7: whatever chip is on the bus and whatever the error outcome, both
suites end with the fill pass writing `0xF` to all 1024 addresses (the
trace ends with exactly those writes), and on a healthy memory every
address holds `0xF` afterwards. -/
theorem fill_pass (σ : Type) (c : Chip σ) (s0 : σ) :
    (∃ pre, (runFullTest c s0).bus.ops = pre ++ fillOps) ∧
    (∃ pre, (automatedTest c s0).bus.ops = pre ++ fillOps) ∧
    ∀ a : Nat, a < 1024 →
      (runFullTest healthyChip mem0).bus.chip a = 0xF ∧
      (automatedTest healthyChip mem0).bus.chip a = 0xF := by
  refine ⟨⟨(altReadPhase c (altWritePhase c (constPhase c
      (initRun s0)))).bus.ops, ?_⟩,
    ⟨(lfsrReadPhase c (lfsrWritePhase c (walkPhase c (autoAltPhase c
      (autoConstPhase c (initRun s0)))))).bus.ops, ?_⟩, ?_⟩
  · show (fillMemory c (altReadPhase c (altWritePhase c (constPhase c
      (initRun s0)))).bus 0xF).ops = _
    exact fillMemory_ops c _
  · show (fillMemory c (lfsrReadPhase c (lfsrWritePhase c (walkPhase c
      (autoAltPhase c (autoConstPhase c (initRun s0)))))).bus 0xF).ops = _
    exact fillMemory_ops c _
  · intro a ha
    constructor
    · show (fillMemory healthyChip (altReadPhase healthyChip
        (altWritePhase healthyChip (constPhase healthyChip
          (initRun mem0)))).bus 0xF).chip a = 0xF
      exact fillMemory_chip _ a ha
    · show (fillMemory healthyChip (lfsrReadPhase healthyChip
        (lfsrWritePhase healthyChip (walkPhase healthyChip (autoAltPhase
          healthyChip (autoConstPhase healthyChip
            (initRun mem0)))))).bus 0xF).chip a = 0xF
      exact fillMemory_chip _ a ha

/-- Witness for C7 at address 0 on the healthy memory. -/
theorem fill_pass_witness :
    (0 : Nat) < 1024 ∧
    (runFullTest healthyChip mem0).bus.chip 0 = 0xF :=
  ⟨by decide,
    ((fill_pass (Nat → Nat) healthyChip mem0).2.2 0 (by decide)).1⟩

/-- C8: the checkerboard value written and expected at an address is `0x5`
at odd addresses and `0xA` at even addresses. -/
theorem checkerboard_pattern (addr : Nat) :
    (Odd addr → altPattern addr = 0x5) ∧
    (Even addr → altPattern addr = 0xA) := by
  constructor
  · intro h
    have h1 : addr % 2 = 1 := Nat.odd_iff.mp h
    simp [altPattern, h1]
  · intro h
    have h0 : addr % 2 = 0 := Nat.even_iff.mp h
    simp [altPattern, h0]

/-- Witness for C8 at addresses 1 and 2. -/
theorem checkerboard_pattern_witness :
    Odd 1 ∧ altPattern 1 = 0x5 ∧ Even 2 ∧ altPattern 2 = 0xA :=
  ⟨⟨0, by decide⟩, (checkerboard_pattern 1).1 ⟨0, by decide⟩,
    ⟨1, by decide⟩, (checkerboard_pattern 2).2 ⟨1, by decide⟩⟩

/-- C9: the walking-bit test performs exactly 8 sweeps, in bit order 0..3
with the set sweep before the clear sweep — on any chip — and for bits
below 4 the set pattern has exactly that bit set and the clear pattern
exactly that bit clear. -/
theorem walking_bit_sweeps (σ : Type) (c : Chip σ) (r : RunSt σ) :
    writesTo0 (walkPhase c r).bus.ops
      = writesTo0 r.bus.ops
        ++ [(1 <<< 0) &&& 0xF, ((1 <<< 0) ^^^ 0xF) &&& 0xF,
            (1 <<< 1) &&& 0xF, ((1 <<< 1) ^^^ 0xF) &&& 0xF,
            (1 <<< 2) &&& 0xF, ((1 <<< 2) ^^^ 0xF) &&& 0xF,
            (1 <<< 3) &&& 0xF, ((1 <<< 3) ^^^ 0xF) &&& 0xF] ∧
    ∀ b : Nat, b < 4 → ∀ i : Nat, i < 4 →
      (((1 <<< b) &&& 0xF).testBit i ↔ i = b) ∧
      ((((1 <<< b) ^^^ 0xF) &&& 0xF).testBit i ↔ i ≠ b) := by
  constructor
  · rw [writesTo0_walkPhase,
      show [(0x1 : Nat), 0xE, 0x2, 0xD, 0x4, 0xB, 0x8, 0x7]
        = [(1 <<< 0) &&& 0xF, ((1 <<< 0) ^^^ 0xF) &&& 0xF,
           (1 <<< 1) &&& 0xF, ((1 <<< 1) ^^^ 0xF) &&& 0xF,
           (1 <<< 2) &&& 0xF, ((1 <<< 2) ^^^ 0xF) &&& 0xF,
           (1 <<< 3) &&& 0xF, ((1 <<< 3) ^^^ 0xF) &&& 0xF] from by decide]
  · decide

/-- Witness for C9: bit 1 of the set pattern for bit 2 is clear. -/
theorem walking_bit_sweeps_witness :
    (2 : Nat) < 4 ∧ (1 : Nat) < 4 ∧
    (((1 <<< 2) &&& 0xF).testBit 1 ↔ (1 : Nat) = 2) :=
  ⟨by decide, by decide,
    ((walking_bit_sweeps (Nat → Nat) healthyChip (initRun mem0)).2 2
      (by decide) 1 (by decide)).1⟩

/-- C10 (counterexample): the invariant fails for seeds above 10 bits:
seed `0x400` survives `lfsr10_init` unmasked (state 1024 > 0x3FF), and one
`lfsr10_next` step then drives the state to 0, where the generator sticks
at a constant all-zero stream. -/
theorem lfsr10_seed_overflow :
    (lfsr10_init 0x400).state = 0x400 ∧
    ¬ (lfsr10_init 0x400).state ≤ 0x3FF ∧
    (lfsr10_next (lfsr10_init 0x400)).2.state = 0 ∧
    (lfsr10_next ⟨0⟩).2.state = 0 ∧ (lfsr10_next ⟨0⟩).1 = 0 := by decide

/-- C10 (amended): for seeds below 1024 the initial state is non-zero and
at most `0x3FF`, and `lfsr10_next` preserves non-zero 10-bit states, with
every emitted word in [0,15]. -/
theorem lfsr10_state_invariant (seed s : Nat) (hseed : seed < 1024)
    (hs0 : 0 < s) (hs1 : s ≤ 0x3FF) :
    (0 < (lfsr10_init seed).state ∧ (lfsr10_init seed).state ≤ 0x3FF) ∧
    (0 < (lfsr10_next ⟨s⟩).2.state ∧ (lfsr10_next ⟨s⟩).2.state ≤ 0x3FF ∧
      (lfsr10_next ⟨s⟩).1 ≤ 15) := by
  have h1 : ∀ sd : Nat, sd < 1024 →
      0 < (lfsr10_init sd).state ∧ (lfsr10_init sd).state ≤ 0x3FF := by decide
  have h2 : ∀ t : Nat, t < 1024 → 0 < t →
      0 < (lfsr10_next ⟨t⟩).2.state ∧ (lfsr10_next ⟨t⟩).2.state ≤ 0x3FF ∧
      (lfsr10_next ⟨t⟩).1 ≤ 15 := by decide
  exact ⟨h1 seed hseed, h2 s (by omega) hs0⟩

/-- Witness for C10 at the sketch's seed `0x1A3`. -/
theorem lfsr10_state_invariant_witness :
    (0x1A3 : Nat) < 1024 ∧ (0 : Nat) < 0x1A3 ∧ (0x1A3 : Nat) ≤ 0x3FF ∧
    (0 < (lfsr10_init 0x1A3).state ∧ (lfsr10_init 0x1A3).state ≤ 0x3FF) :=
  ⟨by decide, by decide, by decide,
    (lfsr10_state_invariant 0x1A3 0x1A3 (by decide) (by decide)
      (by decide)).1⟩

end SramTester
